import Mathlib

/-!
Shallow embedding of `xgal/deltag.py` (catalog-to-overdensity pipeline).

Conventions of the embedding:

* Healpix maps and catalog columns are `List ℚ` (numpy float arrays are
  idealised as exact rationals).  Values produced by divisions that numpy
  does not guard are modelled in `RVal`, a rational extended with the IEEE
  special values `nan`, `inf`, `ninf`, so that an unguarded `0/0` is
  observable as `RVal.nan` rather than collapsed to a junk rational.
* The external healpix pixelization service (spec section 6) is injected:
  for a given `nside` the composite `fun ra dec => hp.ang2pix(nside,
  (90 - dec)/180*pi, ra/180*pi)` is passed as a function
  `g : ℚ → ℚ → Fin (nside2npix nside)`; its codomain encodes the service's
  guarantee that returned indices are in range.  `hp.nside2npix` is
  `12 * nside ^ 2`.
* Python `assert` failures and numpy broadcasting `ValueError`s are
  modelled as `Except PyErr`; each constructor records which check of
  `make_healpix_map` fired, in source order.
* `np.random.poisson` (external random source) is not modelled; for
  `density2count` the deterministic per-pixel rate array `lamb`
  (lines 200-203 of the source) is embedded as `density2count_lamb`.
* The optional `return_extra` statistics bundle (lines 110-119) depends on
  the external pixel-area service and is not modelled; no claim touches it.
-/

set_option linter.unusedVariables false

/-- The sentinel `hp.UNSEEN` = -1.6375e30, an exact float. -/
def UNSEEN : ℚ := -16375 * 10 ^ 26

/-- `hp.nside2npix nside = 12 * nside²`. -/
def nside2npix (nside : ℕ) : ℕ := 12 * nside ^ 2

/-- A numpy float value: an exact rational or one of the IEEE special
values produced by unguarded division (`0/0 = nan`, `x/0 = ±inf`).
The sign of zero is not tracked (irrelevant to the claims). -/
inductive RVal
  | num (q : ℚ)
  | nan
  | inf
  | ninf
  deriving DecidableEq, Repr

/-- IEEE division on `RVal` (single unsigned zero). -/
def RVal.div : RVal → RVal → RVal
  | num a, num b =>
      if b = 0 then (if a = 0 then nan else if 0 < a then inf else ninf)
      else num (a / b)
  | num _, inf => num 0
  | num _, ninf => num 0
  | inf, num b => if b < 0 then ninf else inf
  | ninf, num b => if b < 0 then inf else ninf
  | inf, inf => nan
  | inf, ninf => nan
  | ninf, inf => nan
  | ninf, ninf => nan
  | nan, _ => nan
  | _, nan => nan

/-- IEEE subtraction on `RVal`. -/
def RVal.sub : RVal → RVal → RVal
  | num a, num b => num (a - b)
  | inf, num _ => inf
  | ninf, num _ => ninf
  | num _, inf => ninf
  | num _, ninf => inf
  | inf, inf => nan
  | inf, ninf => inf
  | ninf, inf => ninf
  | ninf, ninf => nan
  | nan, _ => nan
  | _, nan => nan

/-- Errors surfaced by the Python code: each `assert` of
`make_healpix_map` (by source line), numpy broadcasting failure, and the
`NameError` raised by `overdensity`. -/
inductive PyErr
  /-- line 54: `quantity.shape == weight.shape` failed. -/
  | assertQWShape
  /-- line 55: `np.all(weight > 0.)` failed. -/
  | assertWeightPos
  /-- line 60: `quantity.shape[1] == weight.shape[1]` failed. -/
  | assertQWLen
  /-- line 62: `len(ra) == len(dec)` failed. -/
  | assertRaDecLen
  /-- line 67: `len(mask) == npix` failed. -/
  | assertMaskLen
  /-- line 90: `np.all(count[bool_mask] > 0)` failed. -/
  | assertMaskCoverage
  /-- numpy `ValueError`: operands could not be broadcast together. -/
  | broadcastError
  /-- Python `NameError`: reference to an unbound variable. -/
  | nameError
  deriving DecidableEq, Repr

/-- `np.sum(xs[msk])`: sum of the entries of `xs` selected by the boolean
mask `msk` (arrays of equal length in every valid numpy call). -/
def maskedSum (xs : List ℚ) (msk : List Bool) : ℚ :=
  (List.zipWith (fun x b => if b then x else (0 : ℚ)) xs msk).sum

/-- Line 157 of the source: the local expectation
`avg_in_pixel[p] = mask_frac[p] * np.sum(count[msk]) / np.sum(mask_frac[msk])`
at masked pixels, `0.0` (from `np.zeros`) elsewhere.  The division is the
IEEE one: a zero denominator yields `nan`/`±inf`. -/
def avg_in_pixel (count mf : List ℚ) (msk : List Bool) (p : ℕ) : RVal :=
  if msk.getD p false then
    RVal.div (RVal.num (mf.getD p 0 * maskedSum count msk))
      (RVal.num (maskedSum mf msk))
  else RVal.num 0

/-- `count2density` (source lines 124-163): density map from a count map,
with optional completeness `mask_frac` (default all ones) and optional
binary `mask` (default all true).  At masked pixels the density is
`count[p] / avg_in_pixel[p] - 1`, at unmasked pixels `0.0`; all divisions
are unguarded IEEE divisions. -/
def count2density (count : List ℚ) (mask_frac : Option (List ℚ))
    (mask : Option (List Bool)) : List RVal :=
  let npix := count.length
  let mf := mask_frac.getD (List.replicate npix 1)
  let msk := mask.getD (List.replicate npix true)
  List.ofFn (n := npix) fun p =>
    if msk.getD p.val false then
      RVal.sub
        (RVal.div (RVal.num (count.getD p.val 0)) (avg_in_pixel count mf msk p.val))
        (RVal.num 1)
    else RVal.num 0

/-- A numpy array argument that may be 1-D or 2-D (rows of equal length
in every valid numpy call). -/
inductive NDArr
  | one (xs : List ℚ)
  | two (rows : List (List ℚ))
  deriving DecidableEq, Repr

/-- `arr.shape` as a list: `(n,)` for 1-D, `(rows, cols)` for 2-D. -/
def NDArr.shape : NDArr → List ℕ
  | one xs => [xs.length]
  | two rows => [rows.length, (rows.headD []).length]

/-- `np.atleast_2d`: wrap a 1-D array as a single row; identity on 2-D. -/
def NDArr.atleast_2d : NDArr → List (List ℚ)
  | one xs => [xs]
  | two rows => rows

/-- `np.all(arr > 0.)`. -/
def NDArr.allPos : NDArr → Bool
  | one xs => xs.all fun x => decide (0 < x)
  | two rows => rows.all fun r => r.all fun x => decide (0 < x)

/-- `np.ones_like` on a 2-D array. -/
def ones_like (rows : List (List ℚ)) : List (List ℚ) :=
  rows.map fun r => List.replicate r.length 1

/-- `arr.shape[1]` of a 2-D array. -/
def cols (rows : List (List ℚ)) : ℕ := (rows.headD []).length

/-- Lines 50-62 of `make_healpix_map`: promote `quantity` to 2-D, check
the `quantity`/`weight` shape and positivity asserts, default `weight` to
ones, and check `len(ra) == len(dec)` — all of this only when `quantity`
is given; with `quantity = None` every one of these checks is skipped. -/
def checkQW (quantity weight : Option NDArr) (ra dec : List ℚ) :
    Except PyErr (Option (List (List ℚ) × List (List ℚ))) :=
  match quantity with
  | none => .ok none
  | some q =>
    let qq := q.atleast_2d
    let ww? : Except PyErr (List (List ℚ)) :=
      match weight with
      | some w =>
        if (NDArr.two qq).shape = w.shape then
          if w.allPos then .ok w.atleast_2d else .error .assertWeightPos
        else .error .assertQWShape
      | none => .ok (ones_like qq)
    match ww? with
    | .error e => .error e
    | .ok ww =>
      if cols qq = cols ww then
        if ra.length = dec.length then .ok (some (qq, ww))
        else .error .assertRaDecLen
      else .error .assertQWLen

/-- Lines 66-67: `len(mask) == npix` when a mask is supplied. -/
def checkMaskLen (mask : Option (List Bool)) (npix : ℕ) : Except PyErr Unit :=
  match mask with
  | none => .ok ()
  | some m => if m.length = npix then .ok () else .error .assertMaskLen

/-- Line 70: fill value for pixels outside the mask. -/
def fillValue (fill_UNSEEN : Bool) : ℚ := if fill_UNSEEN then UNSEEN else 0

/-- numpy broadcasting of two 1-D arrays: equal lengths zip, a length-one
array is replicated, anything else is a `ValueError`. -/
def bcast2 {A B : Type} (a : List A) (b : List B) : Option (List (A × B)) :=
  if a.length = b.length then some (a.zip b)
  else if ha : a.length = 1 then
    some (b.map fun y => (a.head (List.length_pos.mp (by omega)), y))
  else if hb : b.length = 1 then
    some (a.map fun x => (x, b.head (List.length_pos.mp (by omega))))
  else none

/-- Line 76: per-object pixel indices.  The external call
`hp.ang2pix(nside, (90-dec)/180*pi, ra/180*pi)` (including the
degree-to-radian transform) is abstracted as the injected service `g`;
`none` models the numpy broadcast `ValueError` on incompatible lengths. -/
def ipixOf (nside : ℕ) (g : ℚ → ℚ → Fin (nside2npix nside))
    (ra dec : List ℚ) : Option (List (Fin (nside2npix nside))) :=
  (bcast2 ra dec).map (List.map fun rd => g rd.1 rd.2)

/-- `np.add.at (a, idx, vals)` with `idx`/`vals` already broadcast into
pairs: in-place scatter-add, one update per pair, in order. -/
def addAt (a : List ℚ) (pairs : List (ℕ × ℚ)) : List ℚ :=
  pairs.foldl (fun acc iv => acc.set iv.1 (acc.getD iv.1 0 + iv.2)) a

/-- Line 72 and 79: `count = np.zeros(npix)` then `np.add.at(count, ipix, 1.)`. -/
def countOf (npix : ℕ) (ipix : List ℕ) : List ℚ :=
  addAt (List.replicate npix 0) (ipix.map fun i => (i, 1))

/-- Lines 82-85: the mask derived as `count > 0` when absent, else the
caller's mask (`astype(bool)` is the identity on our boolean masks). -/
def boolMaskOf (mask : Option (List Bool)) (count0 : List ℚ) : List Bool :=
  match mask with
  | none => count0.map fun c => decide (0 < c)
  | some m => m

/-- Line 88: `count[np.logical_not(bool_mask)] = x`. -/
def maskedCount (npix : ℕ) (bm : List Bool) (count0 : List ℚ) (x : ℚ) :
    List ℚ :=
  List.ofFn (n := npix) fun p =>
    if bm.getD p.val false then count0.getD p.val 0 else x

/-- Lines 95-101 for one quantity row: scatter-add the weights and the
weighted quantities (each broadcast against `ipix`), then divide at
masked pixels (unguarded IEEE division) and fill `x` elsewhere. -/
def rowMap (npix : ℕ) (x : ℚ) (ipix : List ℕ) (bm : List Bool)
    (qrow wrow : List ℚ) : Except PyErr (List RVal) :=
  match bcast2 ipix wrow, bcast2 ipix (List.zipWith (· * ·) qrow wrow) with
  | some wpairs, some qpairs =>
    let sum_w := addAt (List.replicate npix 0) wpairs
    let outmap0 := addAt (List.replicate npix 0) qpairs
    .ok (List.ofFn (n := npix) fun p =>
      if bm.getD p.val false then
        RVal.div (RVal.num (outmap0.getD p.val 0))
          (RVal.num (sum_w.getD p.val 0))
      else RVal.num x)
  | _, _ => .error .broadcastError

/-- Lines 93-103: the loop over quantity rows, stopping at the first
numpy error. -/
def binRows (npix : ℕ) (x : ℚ) (ipix : List ℕ) (bm : List Bool) :
    List (List ℚ × List ℚ) → Except PyErr (List (List RVal))
  | [] => .ok []
  | rw :: rest =>
    match rowMap npix x ipix bm rw.1 rw.2 with
    | .error e => .error e
    | .ok om =>
      match binRows npix x ipix bm rest with
      | .error e => .error e
      | .ok oms => .ok (om :: oms)

/-- Lines 105-108: the returned mask, as floats. -/
def returnedMask (mask : Option (List Bool)) (bm : List Bool) : List ℚ :=
  (match mask with
   | none => bm
   | some m => m).map fun (b : Bool) => if b then (1 : ℚ) else 0

/-- The triple returned by `make_healpix_map`. -/
structure BinResult where
  outmaps : List (List RVal)
  count : List ℚ
  returned_mask : List ℚ
  deriving DecidableEq, Repr

/-- Lines 72-108 after input validation: counting, mask derivation, count
masking, the derived-mask coverage assert (line 90, only when `mask` was
absent), and the quantity maps. -/
def binCore (npix : ℕ) (x : ℚ)
    (qw : Option (List (List ℚ) × List (List ℚ)))
    (mask : Option (List Bool)) (ipix : List ℕ) : Except PyErr BinResult :=
  let count0 := countOf npix ipix
  let bm := boolMaskOf mask count0
  let count := maskedCount npix bm count0 x
  if mask.isNone = true ∧
      ¬ (∀ p : Fin npix, bm.getD p.val false = true → 0 < count.getD p.val 0)
  then .error .assertMaskCoverage
  else
    match qw with
    | none => .ok ⟨[], count, returnedMask mask bm⟩
    | some qwp =>
      match binRows npix x ipix bm (qwp.1.zip qwp.2) with
      | .error e => .error e
      | .ok outmaps => .ok ⟨outmaps, count, returnedMask mask bm⟩

/-- `make_healpix_map` (source lines 14-121).  The source parameter order
is `(ra, dec, quantity, nside, mask, weight, fill_UNSEEN)`; `nside` and
the injected pixelization service `g` come first here because the type of
`g` depends on `nside`.  The optional `return_extra` statistics bundle is
not modelled (see the file header). -/
def make_healpix_map (nside : ℕ) (g : ℚ → ℚ → Fin (nside2npix nside))
    (ra dec : List ℚ) (quantity : Option NDArr) (mask : Option (List Bool))
    (weight : Option NDArr) (fill_UNSEEN : Bool) : Except PyErr BinResult :=
  match checkQW quantity weight ra dec with
  | .error e => .error e
  | .ok qw =>
    match checkMaskLen mask (nside2npix nside) with
    | .error e => .error e
    | .ok _ =>
      match ipixOf nside g ra dec with
      | none => .error .broadcastError
      | some ipixF =>
        binCore (nside2npix nside) (fillValue fill_UNSEEN) qw mask
          (ipixF.map Fin.val)

/-- `density2count` (source lines 166-205), deterministic part: the
per-pixel Poisson rate `lamb = nbarpix * onepdelta * completeness`, with
`onepdelta = np.clip(1 + densitymap, 0, inf)` zeroed outside the mask.
`nbarpix` is `nbar` when `pixel=True`, else `nbar` times the external
pixel solid angle, injected as `pixarea`.  The final
`np.random.poisson(lamb)` draw (external random source) and the non-fatal
below-(-1) warning print are not modelled. -/
def density2count_lamb (densitymap : List ℚ) (nbar : ℚ)
    (mask : Option (List Bool)) (completeness : Option (List ℚ))
    (pixel : Bool) (pixarea : ℚ) : List ℚ :=
  let npix := densitymap.length
  let msk := mask.getD (List.replicate npix true)
  let compl := completeness.getD (msk.map fun b => if b then (1 : ℚ) else 0)
  let nbarpix := if pixel then nbar else nbar * pixarea
  List.ofFn (n := npix) fun p =>
    nbarpix *
      (if msk.getD p.val false then max (1 + densitymap.getD p.val 0) 0
       else 0) *
      compl.getD p.val 0

/-- `overdensity` (source lines 208-215).  Line 209 computes
`binary_mask = (mask_frac == 0.0)`; line 211 then evaluates the call
arguments `(ras, decs, quantity, nside, ...)` — but `quantity` is an
unbound name (neither a parameter of `overdensity` nor a module-level
name in `deltag.py`), so Python raises `NameError` before
`make_healpix_map` ever runs. -/
def overdensity (nside : ℕ) (ras decs : List ℚ) (mask_frac : List ℚ) :
    Except PyErr (List RVal) :=
  let binary_mask := mask_frac.map fun f => decide (f = 0)
  .error .nameError

/-! ### Helper lemmas -/

lemma getD_ofFn {α : Type} {n : ℕ} (f : Fin n → α) (p : ℕ) (d : α)
    (h : p < n) : (List.ofFn f).getD p d = f ⟨p, h⟩ := by
  rw [List.getD_eq_getElem?_getD, List.getElem?_ofFn]
  simp [List.ofFnNthVal, h]

lemma getD_replicate {α : Type} (n p : ℕ) (c d : α) (h : p < n) :
    (List.replicate n c).getD p d = c := by
  rw [List.getD_eq_getElem?_getD, List.getElem?_replicate]
  simp [h]

lemma getD_zipWith {α β γ : Type} (f : α → β → γ) (a : List α) (b : List β)
    (i : ℕ) (d : γ) (da : α) (db : β) (ha : i < a.length) (hb : i < b.length) :
    (List.zipWith f a b).getD i d = f (a.getD i da) (b.getD i db) := by
  have hz : i < (List.zipWith f a b).length := by
    simp only [List.length_zipWith]
    omega
  rw [List.getD_eq_getElem?_getD, List.getElem?_eq_getElem hz]
  rw [List.getElem_zipWith]
  rw [List.getD_eq_getElem?_getD, List.getD_eq_getElem?_getD,
    List.getElem?_eq_getElem ha, List.getElem?_eq_getElem hb]
  rfl

lemma RVal.div_num_of_ne (a b : ℚ) (hb : b ≠ 0) :
    RVal.div (RVal.num a) (RVal.num b) = RVal.num (a / b) := by
  simp [RVal.div, hb]

lemma RVal.div_num_zero_zero :
    RVal.div (RVal.num 0) (RVal.num 0) = RVal.nan := by
  simp [RVal.div]

lemma RVal.div_num_nan (a : ℚ) :
    RVal.div (RVal.num a) RVal.nan = RVal.nan := rfl

lemma RVal.sub_num (a b : ℚ) :
    RVal.sub (RVal.num a) (RVal.num b) = RVal.num (a - b) := rfl

lemma RVal.sub_nan_left (b : ℚ) :
    RVal.sub RVal.nan (RVal.num b) = RVal.nan := rfl

lemma count2density_getD (count mf : List ℚ) (msk : List Bool) (p : ℕ)
    (h : p < count.length) :
    (count2density count (some mf) (some msk)).getD p (RVal.num 0) =
      if msk.getD p false then
        RVal.sub
          (RVal.div (RVal.num (count.getD p 0)) (avg_in_pixel count mf msk p))
          (RVal.num 1)
      else RVal.num 0 := by
  unfold count2density
  simp only [Option.getD_some]
  rw [getD_ofFn _ _ _ h]

lemma sum_zero_nonneg_entry (l : List ℚ) (hnn : ∀ x ∈ l, 0 ≤ x)
    (hs : l.sum = 0) (i : ℕ) (hi : i < l.length) : l.getD i 0 = 0 := by
  induction l generalizing i with
  | nil => simp at hi
  | cons a t ih =>
    have ha : 0 ≤ a := hnn a (List.mem_cons_self a t)
    have ht : 0 ≤ t.sum := List.sum_nonneg fun x hx => hnn x (List.mem_cons_of_mem a hx)
    have hs' : a + t.sum = 0 := by simpa using hs
    have ha0 : a = 0 := by linarith
    have hts : t.sum = 0 := by linarith
    cases i with
    | zero => simpa using ha0
    | succ j =>
      have hj : j < t.length := by simpa using hi
      simpa using ih (fun x hx => hnn x (List.mem_cons_of_mem a hx)) hts j hj

lemma maskedSel_nonneg (mf : List ℚ) (msk : List Bool)
    (hnn : ∀ x ∈ mf, 0 ≤ x) :
    ∀ y ∈ List.zipWith (fun x b => if b then x else (0 : ℚ)) mf msk, 0 ≤ y := by
  induction mf generalizing msk with
  | nil => simp
  | cons a t ih =>
    cases msk with
    | nil => simp
    | cons b bs =>
      intro y hy
      simp only [List.zipWith_cons_cons, List.mem_cons] at hy
      rcases hy with h | h
      · subst h
        cases b
        · simp
        · simpa using hnn a (List.mem_cons_self a t)
      · exact ih bs (fun x hx => hnn x (List.mem_cons_of_mem a hx)) y h

lemma maskedSum_entry_zero (mf : List ℚ) (msk : List Bool) (p : ℕ)
    (hnn : ∀ x ∈ mf, 0 ≤ x) (hs : maskedSum mf msk = 0)
    (hp : p < mf.length) (hp2 : p < msk.length)
    (hm : msk.getD p false = true) : mf.getD p 0 = 0 := by
  have hs' : (List.zipWith (fun x b => if b then x else (0 : ℚ)) mf msk).sum
      = 0 := hs
  have hz := sum_zero_nonneg_entry
    (List.zipWith (fun x b => if b then x else (0 : ℚ)) mf msk)
    (maskedSel_nonneg mf msk hnn) hs' p
    (by simp only [List.length_zipWith]; omega)
  rw [getD_zipWith _ _ _ _ _ 0 false hp hp2, hm] at hz
  simpa using hz

lemma maskedSum_scale (c : ℚ) :
    ∀ (count : List ℚ) (msk : List Bool),
      maskedSum (List.zipWith (fun x b => if b then c * x else x) count msk) msk =
        c * maskedSum count msk := by
  intro count
  induction count with
  | nil => intro msk; simp [maskedSum]
  | cons a t ih =>
    intro msk
    cases msk with
    | nil => simp [maskedSum]
    | cons b bs =>
      have h := ih bs
      simp only [maskedSum] at h
      cases b
      · simp only [maskedSum, List.zipWith_cons_cons, List.sum_cons,
          Bool.false_eq_true, if_false]
        rw [h]
        ring
      · simp only [maskedSum, List.zipWith_cons_cons, List.sum_cons, if_true]
        rw [h]
        ring

/-! ### Scatter-add and binner lemmas -/

lemma addAt_nil (a : List ℚ) : addAt a [] = a := rfl

lemma addAt_cons (a : List ℚ) (iv : ℕ × ℚ) (rest : List (ℕ × ℚ)) :
    addAt a (iv :: rest) =
      addAt (a.set iv.1 (a.getD iv.1 0 + iv.2)) rest := rfl

lemma addAt_length (a : List ℚ) (pairs : List (ℕ × ℚ)) :
    (addAt a pairs).length = a.length := by
  induction pairs generalizing a with
  | nil => rfl
  | cons iv rest ih => rw [addAt_cons, ih, List.length_set]

lemma sum_set_getD_add (a : List ℚ) (i : ℕ) (v : ℚ) (h : i < a.length) :
    (a.set i (a.getD i 0 + v)).sum = a.sum + v := by
  induction a generalizing i with
  | nil => simp at h
  | cons x t ih =>
    cases i with
    | zero => simp [List.getD_cons_zero]; ring
    | succ j =>
      have hj : j < t.length := by simpa using h
      simp only [List.getD_cons_succ, List.set_cons_succ, List.sum_cons,
        ih j hj]
      ring

lemma addAt_sum (pairs : List (ℕ × ℚ)) (a : List ℚ)
    (h : ∀ iv ∈ pairs, iv.1 < a.length) :
    (addAt a pairs).sum = a.sum + (pairs.map Prod.snd).sum := by
  induction pairs generalizing a with
  | nil => simp [addAt_nil]
  | cons iv rest ih =>
    rw [addAt_cons, ih _ (fun jv hj => by
      rw [List.length_set]
      exact h jv (List.mem_cons_of_mem iv hj))]
    rw [sum_set_getD_add a iv.1 iv.2 (h iv (List.mem_cons_self iv rest))]
    simp only [List.map_cons, List.sum_cons]
    ring

lemma addAt_getD_of_not_mem (pairs : List (ℕ × ℚ)) (a : List ℚ) (p : ℕ)
    (h : ∀ iv ∈ pairs, iv.1 ≠ p) :
    (addAt a pairs).getD p 0 = a.getD p 0 := by
  induction pairs generalizing a with
  | nil => rfl
  | cons iv rest ih =>
    rw [addAt_cons, ih _ (fun jv hj => h jv (List.mem_cons_of_mem iv hj))]
    rw [List.getD_eq_getElem?_getD,
      List.getElem?_set_ne (h iv (List.mem_cons_self iv rest)),
      ← List.getD_eq_getElem?_getD]

lemma getD_nonneg (a : List ℚ) (i : ℕ) (ha : ∀ x ∈ a, 0 ≤ x) :
    0 ≤ a.getD i 0 := by
  by_cases hi : i < a.length
  · rw [List.getD_eq_getElem?_getD, List.getElem?_eq_getElem hi]
    exact ha _ (List.getElem_mem hi)
  · rw [List.getD_eq_default _ _ (by omega)]

lemma addAt_nonneg (pairs : List (ℕ × ℚ)) (a : List ℚ)
    (ha : ∀ x ∈ a, 0 ≤ x) (hv : ∀ iv ∈ pairs, 0 ≤ iv.2) :
    ∀ x ∈ addAt a pairs, 0 ≤ x := by
  induction pairs generalizing a with
  | nil => exact ha
  | cons iv rest ih =>
    rw [addAt_cons]
    apply ih
    · intro x hx
      rcases List.mem_or_eq_of_mem_set hx with h | h
      · exact ha x h
      · rw [h]
        have h1 := getD_nonneg a iv.1 ha
        have h2 := hv iv (List.mem_cons_self iv rest)
        linarith
    · intro jv hj
      exact hv jv (List.mem_cons_of_mem iv hj)

lemma countOf_length (npix : ℕ) (ipix : List ℕ) :
    (countOf npix ipix).length = npix := by
  rw [countOf, addAt_length, List.length_replicate]

lemma sum_map_one (l : List ℕ) : (l.map fun _ => (1 : ℚ)).sum = l.length := by
  induction l with
  | nil => simp
  | cons a t ih =>
    simp only [List.map_cons, List.sum_cons, List.length_cons, ih]
    push_cast
    ring

lemma countOf_sum (npix : ℕ) (ipix : List ℕ) (h : ∀ i ∈ ipix, i < npix) :
    (countOf npix ipix).sum = ipix.length := by
  rw [countOf, addAt_sum]
  · rw [List.map_map]
    have he : (Prod.snd ∘ fun i : ℕ => (i, (1 : ℚ))) = fun _ => (1 : ℚ) := rfl
    rw [he, sum_map_one, List.sum_replicate]
    simp
  · intro iv hiv
    rw [List.length_replicate]
    rcases List.mem_map.mp hiv with ⟨i, hi, hrfl⟩
    rw [← hrfl]
    exact h i hi

lemma countOf_nonneg (npix : ℕ) (ipix : List ℕ) :
    ∀ x ∈ countOf npix ipix, 0 ≤ x := by
  apply addAt_nonneg
  · intro x hx
    rw [List.eq_of_mem_replicate hx]
  · intro iv hiv
    rcases List.mem_map.mp hiv with ⟨i, _, hrfl⟩
    rw [← hrfl]
    norm_num

lemma countOf_getD_of_not_mem (npix : ℕ) (ipix : List ℕ) (p : ℕ)
    (h : p ∉ ipix) : (countOf npix ipix).getD p 0 = 0 := by
  rw [countOf, addAt_getD_of_not_mem]
  · rw [List.getD_eq_getElem?_getD, List.getElem?_replicate]
    by_cases hp : p < npix <;> simp [hp]
  · intro iv hiv
    rcases List.mem_map.mp hiv with ⟨i, hi, hrfl⟩
    rw [← hrfl]
    intro hc
    exact h (hc ▸ hi)

lemma getD_map_decide (count0 : List ℚ) (i : ℕ) (hi : i < count0.length) :
    (count0.map fun c => decide (0 < c)).getD i false =
      decide (0 < count0.getD i 0) := by
  rw [List.getD_eq_getElem?_getD, List.getElem?_map,
    List.getElem?_eq_getElem hi, List.getD_eq_getElem?_getD,
    List.getElem?_eq_getElem hi]
  rfl

lemma maskedCount_getD (npix : ℕ) (bm : List Bool) (count0 : List ℚ)
    (x : ℚ) (p : ℕ) (hp : p < npix) :
    (maskedCount npix bm count0 x).getD p 0 =
      if bm.getD p false then count0.getD p 0 else x := by
  rw [maskedCount, getD_ofFn _ _ _ hp]

/-- When the mask is derived (`mask = None`), the coverage check of
line 90 always passes: the derived mask marks exactly the pixels with
positive count, and masking leaves those entries untouched. -/
lemma derived_mask_coverage (npix : ℕ) (ipix : List ℕ) (x : ℚ) :
    ∀ p : Fin npix,
      (boolMaskOf none (countOf npix ipix)).getD p.val false = true →
      0 < (maskedCount npix (boolMaskOf none (countOf npix ipix))
        (countOf npix ipix) x).getD p.val 0 := by
  intro p hbm
  rw [maskedCount_getD _ _ _ _ _ p.isLt, hbm, if_pos rfl]
  rw [boolMaskOf] at hbm
  rw [getD_map_decide _ _ (by rw [countOf_length]; exact p.isLt)] at hbm
  exact of_decide_eq_true hbm

lemma checkQW_not_coverage (quantity weight : Option NDArr)
    (ra dec : List ℚ) :
    checkQW quantity weight ra dec ≠ Except.error PyErr.assertMaskCoverage := by
  unfold checkQW
  rcases quantity with _ | q
  · simp
  · rcases weight with _ | w <;> simp only [] <;> (try split_ifs) <;>
      (try simp) <;> (try split_ifs) <;> simp

lemma checkMaskLen_not_coverage (mask : Option (List Bool)) (npix : ℕ) :
    checkMaskLen mask npix ≠ Except.error PyErr.assertMaskCoverage := by
  unfold checkMaskLen
  rcases mask with _ | m
  · simp
  · simp only []
    split_ifs <;> simp

lemma rowMap_error (npix : ℕ) (x : ℚ) (ipix : List ℕ) (bm : List Bool)
    (qrow wrow : List ℚ) (e : PyErr)
    (h : rowMap npix x ipix bm qrow wrow = Except.error e) :
    e = PyErr.broadcastError := by
  rw [rowMap] at h
  rcases hbw : bcast2 ipix wrow with _ | wp <;>
    rcases hbq : bcast2 ipix (List.zipWith (· * ·) qrow wrow) with _ | qp <;>
    rw [hbw, hbq] at h <;> simp_all

lemma binRows_error (npix : ℕ) (x : ℚ) (ipix : List ℕ) (bm : List Bool)
    (rows : List (List ℚ × List ℚ)) (e : PyErr)
    (h : binRows npix x ipix bm rows = Except.error e) :
    e = PyErr.broadcastError := by
  induction rows with
  | nil => simp [binRows] at h
  | cons rw0 rest ih =>
    rw [binRows] at h
    rcases hr : rowMap npix x ipix bm rw0.1 rw0.2 with e' | om <;> rw [hr] at h
    · cases h
      exact rowMap_error _ _ _ _ _ _ _ hr
    · rcases hb : binRows npix x ipix bm rest with e' | oms <;> rw [hb] at h
      · cases h
        exact ih hb
      · cases h

lemma binRows_ok_mem (npix : ℕ) (x : ℚ) (ipix : List ℕ) (bm : List Bool)
    (rows : List (List ℚ × List ℚ)) (oms : List (List RVal))
    (h : binRows npix x ipix bm rows = Except.ok oms) :
    ∀ om ∈ oms, ∃ rw0 ∈ rows, rowMap npix x ipix bm rw0.1 rw0.2 =
      Except.ok om := by
  induction rows generalizing oms with
  | nil =>
    rw [binRows] at h
    cases h
    simp
  | cons rw0 rest ih =>
    rw [binRows] at h
    rcases hr : rowMap npix x ipix bm rw0.1 rw0.2 with e' | om0 <;> rw [hr] at h
    · cases h
    · rcases hb : binRows npix x ipix bm rest with e' | oms' <;> rw [hb] at h
      · cases h
      · cases h
        intro om hom
        rcases List.mem_cons.mp hom with h1 | h1
        · exact ⟨rw0, List.mem_cons_self rw0 rest, h1 ▸ hr⟩
        · rcases ih oms' hb om h1 with ⟨rw1, hrw1, hok⟩
          exact ⟨rw1, List.mem_cons_of_mem rw0 hrw1, hok⟩

lemma bcast2_fst_mem {A B : Type} (a : List A) (b : List B)
    (pairs : List (A × B)) (h : bcast2 a b = some pairs) :
    ∀ iv ∈ pairs, iv.1 ∈ a := by
  rw [bcast2] at h
  split_ifs at h with h1 h2 h3
  · cases h
    intro iv hiv
    exact (List.of_mem_zip hiv).1
  · cases h
    intro iv hiv
    rcases List.mem_map.mp hiv with ⟨y, _, hrfl⟩
    rw [← hrfl]
    exact List.head_mem _
  · cases h
    intro iv hiv
    rcases List.mem_map.mp hiv with ⟨x, hx, hrfl⟩
    rw [← hrfl]
    exact hx

lemma getD_replicate_zero (npix p : ℕ) :
    (List.replicate npix (0 : ℚ)).getD p 0 = 0 := by
  rw [List.getD_eq_getElem?_getD, List.getElem?_replicate]
  by_cases hp : p < npix <;> simp [hp]

/-- `binCore` can only fail with a numpy broadcast error: the line-90
coverage assert never fires, because with a derived mask it checks
exactly the pixels with positive count and with a caller mask the assert
is skipped. -/
lemma binCore_error_broadcast (npix : ℕ) (x : ℚ)
    (qw : Option (List (List ℚ) × List (List ℚ)))
    (mask : Option (List Bool)) (ipix : List ℕ) (e : PyErr)
    (h : binCore npix x qw mask ipix = Except.error e) :
    e = PyErr.broadcastError := by
  simp only [binCore] at h
  by_cases hcond : mask.isNone = true ∧
      ¬ (∀ p : Fin npix,
        (boolMaskOf mask (countOf npix ipix)).getD p.val false = true →
        0 < (maskedCount npix (boolMaskOf mask (countOf npix ipix))
          (countOf npix ipix) x).getD p.val 0)
  · rcases mask with _ | m
    · exact absurd (derived_mask_coverage npix ipix x) hcond.2
    · simp at hcond
  · rw [if_neg hcond] at h
    rcases qw with _ | qwp
    · simp at h
    · simp only [] at h
      rcases hb : binRows npix x ipix (boolMaskOf mask (countOf npix ipix))
          (qwp.1.zip qwp.2) with e' | oms <;> rw [hb] at h
      · cases h
        exact binRows_error _ _ _ _ _ _ hb
      · simp at h

lemma binCore_ok_count (npix : ℕ) (x : ℚ)
    (qw : Option (List (List ℚ) × List (List ℚ)))
    (mask : Option (List Bool)) (ipix : List ℕ) (r : BinResult)
    (h : binCore npix x qw mask ipix = Except.ok r) :
    r.count = maskedCount npix (boolMaskOf mask (countOf npix ipix))
      (countOf npix ipix) x := by
  simp only [binCore] at h
  split_ifs at h
  rcases qw with _ | qwp
  · simp only [] at h
    cases h
    rfl
  · simp only [] at h
    rcases hb : binRows npix x ipix (boolMaskOf mask (countOf npix ipix))
        (qwp.1.zip qwp.2) with e' | oms <;> rw [hb] at h
    · simp at h
    · cases h
      rfl

lemma binCore_ok_outmaps (npix : ℕ) (x : ℚ)
    (qw : Option (List (List ℚ) × List (List ℚ)))
    (mask : Option (List Bool)) (ipix : List ℕ) (r : BinResult)
    (h : binCore npix x qw mask ipix = Except.ok r) :
    ∀ om ∈ r.outmaps, ∃ rw0 : List ℚ × List ℚ,
      rowMap npix x ipix (boolMaskOf mask (countOf npix ipix)) rw0.1 rw0.2 =
        Except.ok om := by
  simp only [binCore] at h
  split_ifs at h
  rcases qw with _ | qwp
  · simp only [] at h
    cases h
    simp
  · simp only [] at h
    rcases hb : binRows npix x ipix (boolMaskOf mask (countOf npix ipix))
        (qwp.1.zip qwp.2) with e' | oms <;> rw [hb] at h
    · simp at h
    · cases h
      intro om hom
      rcases binRows_ok_mem _ _ _ _ _ _ hb om hom with ⟨rw0, _, hok⟩
      exact ⟨rw0, hok⟩

lemma rowMap_ok_getD_nan (npix : ℕ) (x : ℚ) (ipix : List ℕ) (bm : List Bool)
    (qrow wrow : List ℚ) (om : List RVal) (p : ℕ)
    (hok : rowMap npix x ipix bm qrow wrow = Except.ok om)
    (hp : p < npix) (hbm : bm.getD p false = true)
    (hnot : ∀ i ∈ ipix, i ≠ p) :
    om.getD p (RVal.num 0) = RVal.nan := by
  rw [rowMap] at hok
  rcases hbw : bcast2 ipix wrow with _ | wpairs <;> rw [hbw] at hok
  · cases hok
  rcases hbq : bcast2 ipix (List.zipWith (· * ·) qrow wrow) with _ | qpairs <;>
    rw [hbq] at hok
  · cases hok
  simp only [] at hok
  cases hok
  rw [getD_ofFn _ _ _ hp]
  simp only [Fin.val_mk]
  rw [hbm, if_pos rfl]
  have hw : (addAt (List.replicate npix 0) wpairs).getD p 0 = 0 := by
    rw [addAt_getD_of_not_mem _ _ _
      (fun iv hiv => hnot iv.1 (bcast2_fst_mem _ _ _ hbw iv hiv)),
      getD_replicate_zero]
  have hq : (addAt (List.replicate npix 0) qpairs).getD p 0 = 0 := by
    rw [addAt_getD_of_not_mem _ _ _
      (fun iv hiv => hnot iv.1 (bcast2_fst_mem _ _ _ hbq iv hiv)),
      getD_replicate_zero]
  rw [hw, hq, RVal.div_num_zero_zero]

lemma maskedCount_sum_eq (npix : ℕ) (bm : List Bool) (c0 : List ℚ)
    (hlen : c0.length = npix)
    (hz : ∀ p, p < npix → bm.getD p false = false → c0.getD p 0 = 0) :
    (maskedCount npix bm c0 0).sum = c0.sum := by
  rw [maskedCount, List.sum_ofFn]
  have hrep : c0 = List.ofFn (n := npix) fun p => c0.getD p.val 0 := by
    apply List.ext_getElem
    · simp [hlen]
    · intro n h1 h2
      rw [List.getElem_ofFn]
      simp only [Fin.val_mk]
      rw [List.getD_eq_getElem?_getD, List.getElem?_eq_getElem h1]
      rfl
  conv_rhs => rw [hrep]
  rw [List.sum_ofFn]
  apply Finset.sum_congr rfl
  intro p _
  by_cases hb : bm.getD p.val false
  · rw [if_pos hb]
  · rw [if_neg hb, hz p.val p.isLt (by simpa using hb)]

lemma maskedCount_sum_allfalse (npix : ℕ) (c0 : List ℚ) (x : ℚ) :
    (maskedCount npix (List.replicate npix false) c0 x).sum = npix * x := by
  rw [maskedCount, List.sum_ofFn]
  have hconst : ∀ p : Fin npix,
      (if (List.replicate npix false).getD p.val false then c0.getD p.val 0
       else x) = x := by
    intro p
    rw [getD_replicate _ _ _ _ p.isLt]
    simp
  rw [Finset.sum_congr rfl (fun p _ => hconst p)]
  simp [Finset.sum_const, Finset.card_univ, nsmul_eq_mul]

/-- A concrete pixelization service for `nside = 1` sending everything to
pixel 0, used in the concrete scenarios. -/
def g0 : ℚ → ℚ → Fin (nside2npix 1) := fun _ _ => ⟨0, by norm_num [nside2npix]⟩

/-! ### Claim theorems -/

/-- C9: with a derived mask (`mask = None`), the `MaskCoverageError`
branch of `make_healpix_map` is unreachable for every input catalog: the
derived mask marks exactly the pixels of positive count. -/
theorem make_healpix_map_coverage_unreachable (nside : ℕ)
    (g : ℚ → ℚ → Fin (nside2npix nside)) (ra dec : List ℚ)
    (quantity weight : Option NDArr) (fill_UNSEEN : Bool) :
    make_healpix_map nside g ra dec quantity none weight fill_UNSEEN ≠
      Except.error PyErr.assertMaskCoverage := by
  intro hcontra
  rw [make_healpix_map] at hcontra
  rcases hq : checkQW quantity weight ra dec with e | qw <;> rw [hq] at hcontra
  · cases hcontra
    exact checkQW_not_coverage _ _ _ _ hq
  · rcases hm : checkMaskLen none (nside2npix nside) with e | u <;>
      rw [hm] at hcontra
    · cases hcontra
      exact checkMaskLen_not_coverage _ _ hm
    · rcases hip : ipixOf nside g ra dec with _ | ipixF <;> rw [hip] at hcontra
      · simp at hcontra
      · have := binCore_error_broadcast _ _ _ _ _ _ hcontra
        simp at this

/-- C1: for `count = [10, 0, 5, 0]`, `mask = [true, false, true, false]`,
`completeness = [1, 1, 1, 1]`, `count2density` returns
`[10/7.5 - 1, 0, 5/7.5 - 1, 0]`; and in general, when the normalization
denominators are nonzero, the density at a masked pixel `p` is
`count[p] / (completeness[p] * sum count in mask / sum completeness in mask) - 1`
and the density at an unmasked pixel is zero. -/
theorem count2density_local_mean_scenario :
    (count2density [10, 0, 5, 0] (some [1, 1, 1, 1])
        (some [true, false, true, false]) =
      [RVal.num ((10 : ℚ) / 7.5 - 1), RVal.num 0,
        RVal.num ((5 : ℚ) / 7.5 - 1), RVal.num 0]) ∧
    (∀ (count mf : List ℚ) (msk : List Bool) (p : ℕ), p < count.length →
      maskedSum mf msk ≠ 0 → mf.getD p 0 * maskedSum count msk ≠ 0 →
      (msk.getD p false = true →
        (count2density count (some mf) (some msk)).getD p (RVal.num 0) =
          RVal.num (count.getD p 0 /
            (mf.getD p 0 * maskedSum count msk / maskedSum mf msk) - 1)) ∧
      (msk.getD p false = false →
        (count2density count (some mf) (some msk)).getD p (RVal.num 0) =
          RVal.num 0)) := by
  constructor
  · norm_num [count2density, avg_in_pixel, maskedSum, List.ofFn_succ,
      RVal.div, RVal.sub]
  · intro count mf msk p hp hM hA
    constructor
    · intro hm
      rw [count2density_getD _ _ _ _ hp, hm, if_pos rfl]
      unfold avg_in_pixel
      rw [hm, if_pos rfl, RVal.div_num_of_ne _ _ hM,
        RVal.div_num_of_ne _ _ (div_ne_zero hA hM), RVal.sub_num]
    · intro hm
      rw [count2density_getD _ _ _ _ hp, hm]
      simp

/-- Witness for C1 at the concrete scenario, masked pixel 0. -/
theorem count2density_local_mean_scenario_witness :
    (count2density [10, 0, 5, 0] (some [1, 1, 1, 1])
        (some [true, false, true, false])).getD 0 (RVal.num 0) =
      RVal.num ([(10 : ℚ), 0, 5, 0].getD 0 0 /
        ([(1 : ℚ), 1, 1, 1].getD 0 0 *
          maskedSum [10, 0, 5, 0] [true, false, true, false] /
          maskedSum [1, 1, 1, 1] [true, false, true, false]) - 1) :=
  (count2density_local_mean_scenario.2 [10, 0, 5, 0] [1, 1, 1, 1]
    [true, false, true, false] 0 (by norm_num)
    (by norm_num [maskedSum]) (by norm_num [maskedSum])).1 rfl

/-- C2 (code bug): `overdensity` always raises `NameError`: line 211
passes the unbound name `quantity` to `make_healpix_map`, so the composite
never computes a count map nor calls `count2density`. -/
theorem overdensity_raises_nameError
    (nside : ℕ) (ras decs mask_frac : List ℚ) :
    overdensity nside ras decs mask_frac = Except.error PyErr.nameError := rfl

/-- C4: scaling the counts at masked pixels by a positive constant leaves
the output of `count2density` unchanged when the completeness map is held
fixed and the normalization denominators are nonzero. -/
theorem count2density_scale_invariant (count mf : List ℚ) (msk : List Bool)
    (c : ℚ) (hmsk : msk.length = count.length) (hc : 0 < c)
    (hM : maskedSum mf msk ≠ 0)
    (hA : ∀ p, p < count.length → msk.getD p false = true →
      mf.getD p 0 * maskedSum count msk ≠ 0) :
    count2density (List.zipWith (fun x b => if b then c * x else x) count msk)
        (some mf) (some msk) =
      count2density count (some mf) (some msk) := by
  have hlen : (List.zipWith (fun x b => if b then c * x else x) count msk).length
      = count.length := by
    simp only [List.length_zipWith]
    omega
  unfold count2density
  simp only [Option.getD_some]
  apply List.ext_getElem
  · simp [hlen]
  · intro i h1 h2
    rw [List.getElem_ofFn, List.getElem_ofFn]
    simp only [Fin.val_mk]
    simp only [List.length_ofFn] at h1 h2
    have hi : i < count.length := h2
    have hi' : i < msk.length := by omega
    have hgd : (List.zipWith (fun x b => if b then c * x else x) count msk).getD i 0
        = if msk.getD i false then c * count.getD i 0 else count.getD i 0 :=
      getD_zipWith _ _ _ _ _ 0 false hi hi'
    by_cases hm : msk.getD i false
    · rw [if_pos hm, if_pos hm]
      unfold avg_in_pixel
      rw [if_pos hm, if_pos hm, maskedSum_scale, hgd, if_pos hm]
      have hAi := hA i hi hm
      have hcne : c ≠ 0 := ne_of_gt hc
      have hmf : mf.getD i 0 ≠ 0 := fun h => hAi (by rw [h]; ring)
      have hSc : maskedSum count msk ≠ 0 := fun h => hAi (by rw [h]; ring)
      have hS : mf.getD i 0 * (c * maskedSum count msk) ≠ 0 := by
        have he : mf.getD i 0 * (c * maskedSum count msk) =
            c * (mf.getD i 0 * maskedSum count msk) := by ring
        rw [he]
        exact mul_ne_zero hcne hAi
      rw [RVal.div_num_of_ne _ _ hM, RVal.div_num_of_ne _ _ hM,
        RVal.div_num_of_ne _ _ (div_ne_zero hS hM),
        RVal.div_num_of_ne _ _ (div_ne_zero hAi hM),
        RVal.sub_num, RVal.sub_num]
      congr 1
      have he2 : mf.getD i 0 * (c * maskedSum count msk) / maskedSum mf msk =
          c * (mf.getD i 0 * maskedSum count msk / maskedSum mf msk) := by
        ring
      rw [he2, mul_div_mul_left _ _ hcne]
    · rw [if_neg hm, if_neg hm]

/-- Witness for C4: doubling the masked counts of the concrete scenario. -/
theorem count2density_scale_invariant_witness :
    count2density
        (List.zipWith (fun x b => if b then (2 : ℚ) * x else x)
          [10, 0, 5, 0] [true, false, true, false])
        (some [1, 1, 1, 1]) (some [true, false, true, false]) =
      count2density [10, 0, 5, 0] (some [1, 1, 1, 1])
        (some [true, false, true, false]) :=
  count2density_scale_invariant [10, 0, 5, 0] [1, 1, 1, 1]
    [true, false, true, false] 2 (by norm_num) (by norm_num)
    (by norm_num [maskedSum])
    (by
      intro p hp hm
      norm_num at hp
      interval_cases p <;> norm_num [maskedSum])

/-- C5 counterexample: with `count = [5]`, completeness `[0]` and mask
`[true]` the completeness sum in the mask is zero, yet `count2density`
neither raises (it is a total function with no error path) nor returns
the all-zero map: it returns `[nan]` from the unguarded `0/0`. -/
theorem count2density_nan_counterexample :
    count2density [5] (some [0]) (some [true]) = [RVal.nan] ∧
      RVal.nan ≠ RVal.num 0 := by
  constructor
  · norm_num [count2density, avg_in_pixel, maskedSum, List.ofFn_succ,
      RVal.div, RVal.sub]
  · simp

/-- C5 amended: when the completeness map is nonnegative and its sum over
the mask is zero, `count2density` performs the division anyway: every
masked pixel of the returned map is `nan` (IEEE `0/0`); there is no
`EmptyMaskError` and the map is not zero there. -/
theorem count2density_zero_completeness_nan (count mf : List ℚ)
    (msk : List Bool) (p : ℕ) (hnn : ∀ x ∈ mf, 0 ≤ x)
    (hmflen : mf.length = count.length) (hmsk : msk.length = count.length)
    (hp : p < count.length) (hmask : msk.getD p false = true)
    (hsum : maskedSum mf msk = 0) :
    (count2density count (some mf) (some msk)).getD p (RVal.num 0) =
      RVal.nan := by
  have hmf0 : mf.getD p 0 = 0 :=
    maskedSum_entry_zero mf msk p hnn hsum (by omega) (by omega) hmask
  rw [count2density_getD _ _ _ _ hp, if_pos hmask]
  unfold avg_in_pixel
  rw [if_pos hmask, hmf0, hsum, zero_mul, RVal.div_num_zero_zero,
    RVal.div_num_nan, RVal.sub_nan_left]

/-- Witness for C5 amended at the concrete input of the counterexample. -/
theorem count2density_zero_completeness_nan_witness :
    (count2density [5] (some [0]) (some [true])).getD 0 (RVal.num 0) =
      RVal.nan :=
  count2density_zero_completeness_nan [5] [0] [true] 0
    (by norm_num) (by norm_num) (by norm_num) (by norm_num)
    (by norm_num) (by norm_num [maskedSum])

/-- C8: the Poisson rate computed by `density2count` at pixel `p` is
`nbarpix * clip(1 + density[p], 0, inf) * completeness[p]` with the
clipped factor zeroed outside the mask; in particular a masked pixel with
density `-1`, or any density below `-1`, gets rate exactly `0`. -/
theorem density2count_lamb_clip (d : List ℚ) (nbar : ℚ) (m : List Bool)
    (cl : List ℚ) (pixel : Bool) (pixarea : ℚ) (p : ℕ)
    (hp : p < d.length) :
    ((density2count_lamb d nbar (some m) (some cl) pixel pixarea).getD p 0 =
      (if pixel then nbar else nbar * pixarea) *
        (if m.getD p false then max (1 + d.getD p 0) 0 else 0) *
        cl.getD p 0) ∧
    (m.getD p false = true → d.getD p 0 ≤ -1 →
      (density2count_lamb d nbar (some m) (some cl) pixel pixarea).getD p 0 =
        0) := by
  have hmain :
      (density2count_lamb d nbar (some m) (some cl) pixel pixarea).getD p 0 =
        (if pixel then nbar else nbar * pixarea) *
          (if m.getD p false then max (1 + d.getD p 0) 0 else 0) *
          cl.getD p 0 := by
    unfold density2count_lamb
    simp only [Option.getD_some]
    rw [getD_ofFn _ _ _ hp]
  refine ⟨hmain, fun hm hd => ?_⟩
  rw [hmain, hm, if_pos rfl]
  have hmax : max (1 + d.getD p 0) 0 = 0 := by
    apply max_eq_right
    linarith
  rw [hmax, mul_zero, zero_mul]

/-- Witness for C8: a masked pixel with density `-2` (below the clipping
boundary) gets rate exactly `0`. -/
theorem density2count_lamb_clip_witness :
    (density2count_lamb [-2] 3 (some [true]) (some [1]) true 0).getD 0 0 =
      0 :=
  (density2count_lamb_clip [-2] 3 [true] [1] true 0 0 (by norm_num)).2
    (by norm_num) (by norm_num)

lemma cols_ones_like (rows : List (List ℚ)) :
    cols (ones_like rows) = cols rows := by
  rcases rows with _ | ⟨r, rs⟩ <;> simp [cols, ones_like, List.headD]

/-- C6 counterexample: with `quantity = None`, `ra` of length 1 and `dec`
of length 2, `make_healpix_map` performs no ra/dec length validation at
all: the mismatched lengths broadcast in the pixelization call and the
whole operation succeeds instead of failing with ShapeMismatch. -/
theorem make_healpix_map_no_radec_check_counterexample :
    (make_healpix_map 1 g0 [0] [0, 45] none none none false).isOk = true := by
  rw [make_healpix_map]
  have hq : checkQW none none [0] [0, 45] = Except.ok none := rfl
  rw [hq]
  have hm : checkMaskLen none (nside2npix 1) = Except.ok () := rfl
  rw [hm]
  have hip : ipixOf 1 g0 [0] [0, 45] = some [g0 0 0, g0 0 45] := by
    rw [ipixOf, bcast2]
    norm_num
  rw [hip]
  simp only [binCore]
  rw [if_neg (fun hc => hc.2 (derived_mask_coverage _ _ _))]
  rfl

/-- C6 amended: the `len(ra) == len(dec)` assert runs only when a
quantity is supplied (there it does fail with ShapeMismatch before any
aggregation); with `quantity = None` the check is skipped entirely. -/
theorem make_healpix_map_radec_check_with_quantity (nside : ℕ)
    (g : ℚ → ℚ → Fin (nside2npix nside)) (ra dec : List ℚ) (q : NDArr)
    (mask : Option (List Bool)) (fill_UNSEEN : Bool)
    (hlen : ra.length ≠ dec.length) :
    make_healpix_map nside g ra dec (some q) mask none fill_UNSEEN =
      Except.error PyErr.assertRaDecLen := by
  rw [make_healpix_map]
  have hq : checkQW (some q) none ra dec = Except.error PyErr.assertRaDecLen := by
    simp only [checkQW]
    rw [if_pos (cols_ones_like q.atleast_2d).symm, if_neg hlen]
  rw [hq]

/-- Witness for C6 amended: same mismatched catalog as the
counterexample, but with a quantity supplied. -/
theorem make_healpix_map_radec_check_with_quantity_witness :
    make_healpix_map 1 g0 [0] [0, 45] (some (NDArr.one [3])) none none false =
      Except.error PyErr.assertRaDecLen :=
  make_healpix_map_radec_check_with_quantity 1 g0 [0] [0, 45]
    (NDArr.one [3]) none false (by norm_num)

/-- C7 counterexample: `quantity` and `weight` supplied as 1-D arrays of
identical shape `(1,)`, with a strictly positive weight — yet the call
fails with the line-54 shape assert (a ShapeMismatch), because `quantity`
has already been promoted to 2-D shape `(1, 1)` while `weight` has not. -/
theorem make_healpix_map_1d_weight_counterexample :
    make_healpix_map 1 g0 [0] [0] (some (NDArr.one [3])) none
        (some (NDArr.one [1])) false = Except.error PyErr.assertQWShape ∧
      NDArr.shape (NDArr.one [3]) = NDArr.shape (NDArr.one [1]) ∧
      NDArr.allPos (NDArr.one [1]) = true := by
  refine ⟨?_, rfl, by norm_num [NDArr.allPos]⟩
  rw [make_healpix_map]
  have hq : checkQW (some (NDArr.one [3])) (some (NDArr.one [1])) [0] [0] =
      Except.error PyErr.assertQWShape := by
    simp [checkQW, NDArr.atleast_2d, NDArr.shape]
  rw [hq]

/-- C7 amended: when `quantity` and `weight` are both 2-D with identical
shape and strictly positive weights, and the ra/dec and mask validations
hold, `make_healpix_map` fails with neither ShapeMismatch nor
InvalidWeight — any remaining failure is a numpy broadcast error.  (Both
1-D is the corrected exception: it trips the shape assert, see the
counterexample.) -/
theorem make_healpix_map_2d_qw_no_shape_error (nside : ℕ)
    (g : ℚ → ℚ → Fin (nside2npix nside)) (ra dec : List ℚ)
    (qs ws : List (List ℚ)) (mask : Option (List Bool)) (fill_UNSEEN : Bool)
    (e : PyErr)
    (hshape : NDArr.shape (NDArr.two qs) = NDArr.shape (NDArr.two ws))
    (hpos : NDArr.allPos (NDArr.two ws) = true)
    (hra : ra.length = dec.length)
    (hmask : checkMaskLen mask (nside2npix nside) = Except.ok ())
    (h : make_healpix_map nside g ra dec (some (NDArr.two qs)) mask
      (some (NDArr.two ws)) fill_UNSEEN = Except.error e) :
    e = PyErr.broadcastError := by
  rw [make_healpix_map] at h
  have hc : cols qs = cols ws := by
    simp only [NDArr.shape, List.cons.injEq] at hshape
    exact hshape.2.1
  have hq : checkQW (some (NDArr.two qs)) (some (NDArr.two ws)) ra dec =
      Except.ok (some (qs, ws)) := by
    simp only [checkQW, NDArr.atleast_2d]
    rw [if_pos hshape, if_pos hpos]
    simp only [NDArr.atleast_2d]
    rw [if_pos hc, if_pos hra]
  rw [hq, hmask] at h
  rcases hip : ipixOf nside g ra dec with _ | ipixF <;> rw [hip] at h
  · cases h
    rfl
  · exact binCore_error_broadcast _ _ _ _ _ _ h

/-- Witness for C7 amended at a concrete input. -/
theorem make_healpix_map_2d_qw_no_shape_error_witness :
    make_healpix_map 1 g0 [0] [0] (some (NDArr.two [[3]])) none
        (some (NDArr.two [[2]])) false ≠
      Except.error PyErr.assertWeightPos := by
  intro h
  have he := make_healpix_map_2d_qw_no_shape_error 1 g0 [0] [0] [[3]] [[2]]
    none false PyErr.assertWeightPos rfl (by norm_num [NDArr.allPos])
    (by norm_num) rfl h
  simp at he

/-- C3 counterexample: one object, a caller-supplied all-false mask and
`fill_UNSEEN = True`: every pixel of the returned count map is
overwritten with the sentinel, and the sum is `12 * UNSEEN`, not the
object count 1. -/
theorem make_healpix_map_count_sum_counterexample :
    ((make_healpix_map 1 g0 [0] [0] none
          (some (List.replicate (nside2npix 1) false)) none true).map
        fun r => r.count.sum) = Except.ok (12 * UNSEEN) ∧
      (12 : ℚ) * UNSEEN ≠ 1 := by
  constructor
  · rw [make_healpix_map]
    have hq : checkQW none none [0] [0] = Except.ok none := rfl
    rw [hq]
    have hm : checkMaskLen (some (List.replicate (nside2npix 1) false))
        (nside2npix 1) = Except.ok () := by
      simp [checkMaskLen]
    rw [hm]
    have hip : ipixOf 1 g0 [0] [0] = some [g0 0 0] := by
      rw [ipixOf, bcast2]
      norm_num
    rw [hip]
    simp only [binCore]
    rw [if_neg (fun hc => by simp at hc)]
    simp only [Except.map, boolMaskOf]
    rw [show fillValue true = UNSEEN from rfl, maskedCount_sum_allfalse]
    norm_num [nside2npix]
  · norm_num [UNSEEN]

/-- C3 amended: the count map sums to the number of objects provided
`fill_UNSEEN` is false and every object falls in a masked pixel (always
true when the mask is derived); the fill of unmasked pixels is what
breaks the property otherwise. -/
theorem make_healpix_map_count_sum (nside : ℕ)
    (g : ℚ → ℚ → Fin (nside2npix nside)) (ra dec : List ℚ)
    (quantity : Option NDArr) (mask : Option (List Bool))
    (weight : Option NDArr) (r : BinResult)
    (hra : ra.length = dec.length)
    (hmask : ∀ m, mask = some m →
      ∀ rd ∈ ra.zip dec, m.getD (g rd.1 rd.2).val false = true)
    (h : make_healpix_map nside g ra dec quantity mask weight false =
      Except.ok r) :
    r.count.sum = ra.length := by
  rw [make_healpix_map] at h
  rcases hq : checkQW quantity weight ra dec with e | qw <;> rw [hq] at h
  · simp at h
  rcases hml : checkMaskLen mask (nside2npix nside) with e | u <;>
    rw [hml] at h
  · simp at h
  rcases hip : ipixOf nside g ra dec with _ | ipixF <;> rw [hip] at h
  · simp at h
  have hb2 : bcast2 ra dec = some (ra.zip dec) := by
    rw [bcast2, if_pos hra]
  have hipF : ipixF = (ra.zip dec).map fun rd => g rd.1 rd.2 := by
    rw [ipixOf, hb2] at hip
    simpa using hip.symm
  have hcount := binCore_ok_count _ _ _ _ _ _ h
  rw [hcount, show fillValue false = 0 from rfl]
  have hrange : ∀ i ∈ ipixF.map Fin.val, i < nside2npix nside := by
    intro i hi
    rcases List.mem_map.mp hi with ⟨f, _, hrfl⟩
    rw [← hrfl]
    exact f.isLt
  have hz : ∀ p, p < nside2npix nside →
      (boolMaskOf mask (countOf (nside2npix nside)
        (ipixF.map Fin.val))).getD p false = false →
      (countOf (nside2npix nside) (ipixF.map Fin.val)).getD p 0 = 0 := by
    intro p hp hbmf
    rcases mask with _ | m
    · rw [boolMaskOf] at hbmf
      rw [getD_map_decide _ _ (by rw [countOf_length]; exact hp)] at hbmf
      have hle : ¬ 0 < (countOf (nside2npix nside)
          (ipixF.map Fin.val)).getD p 0 := by
        simpa using hbmf
      exact le_antisymm (not_lt.mp hle)
        (getD_nonneg _ p (countOf_nonneg _ _))
    · rw [boolMaskOf] at hbmf
      by_contra hne
      have hmem : p ∈ ipixF.map Fin.val := by
        by_contra hnm
        exact hne (countOf_getD_of_not_mem _ _ _ hnm)
      rcases List.mem_map.mp hmem with ⟨f, hf, hrfl⟩
      rw [hipF] at hf
      rcases List.mem_map.mp hf with ⟨rd, hrd, hrfl2⟩
      have htrue := hmask m rfl rd hrd
      rw [hrfl2, hrfl] at htrue
      rw [htrue] at hbmf
      simp at hbmf
  rw [maskedCount_sum_eq _ _ _ (countOf_length _ _) hz,
    countOf_sum _ _ hrange, List.length_map, hipF, List.length_map,
    List.length_zip, hra, min_self]

/-- Witness for C3 amended: one object, derived mask, zero fill. -/
theorem make_healpix_map_count_sum_witness :
    (make_healpix_map 1 g0 [0] [0] none none none false).map
        (fun r => r.count.sum) = Except.ok 1 := by
  rcases hok : make_healpix_map 1 g0 [0] [0] none none none false
    with e | r
  · exfalso
    rw [make_healpix_map] at hok
    have hq : checkQW none none [0] [0] = Except.ok none := rfl
    rw [hq] at hok
    have hm : checkMaskLen none (nside2npix 1) = Except.ok () := rfl
    rw [hm] at hok
    have hip : ipixOf 1 g0 [0] [0] = some [g0 0 0] := by
      rw [ipixOf, bcast2]
      norm_num
    rw [hip] at hok
    simp only [binCore] at hok
    rw [if_neg (fun hc => hc.2 (derived_mask_coverage _ _ _))] at hok
    simp at hok
  · have hsum := make_healpix_map_count_sum 1 g0 [0] [0] none none none r
      rfl (fun m hm => by cases hm) hok
    simp [Except.map, hsum]

/-- C10: with a caller-supplied mask and a quantity, a masked pixel that
contains no objects has weight-sum 0 and weighted-quantity-sum 0, and the
returned quantity map holds the unguarded IEEE `0/0`, i.e. `nan`, at that
pixel — not the fill value. -/
theorem make_healpix_map_unguarded_empty_pixel (nside : ℕ)
    (g : ℚ → ℚ → Fin (nside2npix nside)) (ra dec : List ℚ) (qv : NDArr)
    (m : List Bool) (weight : Option NDArr) (fill_UNSEEN : Bool) (p : ℕ)
    (r : BinResult)
    (hg : ∀ x y : ℚ, (g x y).val ≠ p)
    (hm : m.getD p false = true)
    (hp : p < nside2npix nside)
    (h : make_healpix_map nside g ra dec (some qv) (some m) weight
      fill_UNSEEN = Except.ok r) :
    (∀ om ∈ r.outmaps, om.getD p (RVal.num 0) = RVal.nan) ∧
      RVal.nan ≠ RVal.num (fillValue fill_UNSEEN) := by
  constructor
  · rw [make_healpix_map] at h
    rcases hq : checkQW (some qv) weight ra dec with e | qw <;> rw [hq] at h
    · simp at h
    rcases hmk : checkMaskLen (some m) (nside2npix nside) with e | u <;>
      rw [hmk] at h
    · simp at h
    rcases hip : ipixOf nside g ra dec with _ | ipixF <;> rw [hip] at h
    · simp at h
    intro om hom
    rcases binCore_ok_outmaps _ _ _ _ _ _ h om hom with ⟨rw0, hok⟩
    have hbm : boolMaskOf (some m)
        (countOf (nside2npix nside) (ipixF.map Fin.val)) = m := rfl
    rw [hbm] at hok
    apply rowMap_ok_getD_nan _ _ _ _ _ _ _ _ hok hp hm
    intro i hi
    rcases List.mem_map.mp hi with ⟨f, hf, hrfl⟩
    rw [ipixOf] at hip
    rcases hb2 : bcast2 ra dec with _ | pairs <;> rw [hb2] at hip
    · simp at hip
    · have hipF : ipixF = pairs.map fun rd => g rd.1 rd.2 := by
        simpa using hip.symm
      rw [hipF] at hf
      rcases List.mem_map.mp hf with ⟨rd, _, hrfl2⟩
      rw [← hrfl, ← hrfl2]
      exact hg rd.1 rd.2
  · simp

/-- A concrete pixelization service for `nside = 1` sending everything to
pixel 1, so that pixel 0 provably contains no objects. -/
def g1 : ℚ → ℚ → Fin (nside2npix 1) := fun _ _ => ⟨1, by norm_num [nside2npix]⟩

/-- Witness for C10: an empty catalog, a mask observing pixel 0, and one
(empty) quantity row: the returned quantity map is `nan` at pixel 0. -/
theorem make_healpix_map_unguarded_empty_pixel_witness :
    (∀ om ∈ ((⟨[RVal.nan :: List.replicate 11 (RVal.num 0)],
          List.replicate 12 0, 1 :: List.replicate 11 0⟩ : BinResult).outmaps),
        om.getD 0 (RVal.num 0) = RVal.nan) ∧
      RVal.nan ≠ RVal.num (fillValue false) :=
  make_healpix_map_unguarded_empty_pixel 1 g1 [] [] (NDArr.one [])
    (true :: List.replicate 11 false) none false 0
    ⟨[RVal.nan :: List.replicate 11 (RVal.num 0)], List.replicate 12 0,
      1 :: List.replicate 11 0⟩
    (fun x y => by simp [g1]) rfl (by norm_num [nside2npix]) rfl

/-- Witness for C9 at a concrete catalog. -/
theorem make_healpix_map_coverage_unreachable_witness :
    make_healpix_map 1 g0 [0] [0] none none none false ≠
      Except.error PyErr.assertMaskCoverage :=
  make_healpix_map_coverage_unreachable 1 g0 [0] [0] none none false
